import Mathlib

/-!
# Verification of the goweave section-extraction pipeline

A shallow embedding of the core of `goweave.go` (comment classification,
directive filtering, section extraction, highlighting and Markdown
rendering of sections), with theorems checking the specification's claims
about it.  Strings are modelled as `List Char`; a Go string `s` appears as
`s.data`.  The external syntax highlighter is an uninterpreted function
parameter.
-/

/-- The character class matched by the regexp escape `\s` in Go's RE2
syntax: `[\t\n\f\r ]`. -/
def isRegexSpace (c : Char) : Bool :=
  c == '\t' || c == '\n' || c == '\x0c' || c == '\r' || c == ' '

/-- Whether `comment` (pattern `^\s*//\s?`) finds a match in a line:
after the maximal run of leading whitespace, the line continues with
`//`. -/
def matchesComment (line : List Char) : Bool :=
  (line.dropWhile isRegexSpace).take 2 == ['/', '/']

/-- Whether `commentStart` (pattern `^\s*/\*\s?`) finds a match in a
line: after the maximal run of leading whitespace, the line continues
with a block-comment opener. -/
def matchesCommentStart (line : List Char) : Bool :=
  (line.dropWhile isRegexSpace).take 2 == ['/', '*']

/-- Remove the maximal run of trailing `\s`-class characters. -/
def rtrimSpace (line : List Char) : List Char :=
  (line.reverse.dropWhile isRegexSpace).reverse

/-- Whether `commentEnd` (pattern `\s?\*/\s*$`) finds a match in a line:
after removing trailing whitespace, the line ends with a block-comment
closer. -/
def matchesCommentEnd (line : List Char) : Bool :=
  (rtrimSpace line).reverse.take 2 == ['/', '*']

/-- One call of the closure returned by `commentFinder`: given the saved
`commentSectionInProgress` flag and the line, return the classification
together with the updated flag, following the source's decision order
(`//` line, `/*` opener, `*/` closer, inside a block comment, else code). -/
def commentFinderStep (inProgress : Bool) (line : List Char) : Bool × Bool :=
  if matchesComment line then (true, inProgress)
  else if matchesCommentStart line then (true, true)
  else if matchesCommentEnd line then (true, false)
  else if inProgress then (true, inProgress)
  else (false, inProgress)

/-- The `commentSectionInProgress` flag after feeding a sequence of lines
to the closure returned by `commentFinder`. -/
def commentFinderState (inProgress : Bool) : List (List Char) → Bool
  | [] => inProgress
  | line :: rest => commentFinderState (commentFinderStep inProgress line).2 rest

/-- `isDirective`: whether the line matches `^//go:`. -/
def isDirective (line : List Char) : Bool :=
  line.take 5 == ['/', '/', 'g', 'o', ':']

/-- Consume the single optional `\s?` character at the front of a
partially matched comment delimiter. -/
def dropOneSpace (l : List Char) : List Char :=
  match l with
  | c :: rest => if isRegexSpace c then rest else l
  | [] => []

/-- Consume the single optional `\s?` character at the end of a
partially matched `\s?\*/\s*$` delimiter. -/
def dropOneSpaceEnd (l : List Char) : List Char :=
  (dropOneSpace l.reverse).reverse

/-- The leading half of `allCommentDelims.ReplaceAllString line ""`:
remove an anchored `^\s*//\s?` or `^\s*/\*\s?` match, when present. -/
def stripLeadingDelim (line : List Char) : List Char :=
  let ds := line.dropWhile isRegexSpace
  if ds.take 2 == ['/', '/'] then dropOneSpace (ds.drop 2)
  else if ds.take 2 == ['/', '*'] then dropOneSpace (ds.drop 2)
  else line

/-- The trailing half of `allCommentDelims.ReplaceAllString line ""`:
remove a `\s?\*/\s*$` match from the remainder, when present. -/
def stripTrailingDelim (r : List Char) : List Char :=
  let rt := rtrimSpace r
  if rt.reverse.take 2 == ['/', '*'] then
    dropOneSpaceEnd (rt.dropLast.dropLast)
  else r

/-- `allCommentDelims.ReplaceAllString line ""` for the alternation
`^\s*//\s?|^\s*/\*\s?|\s?\*/\s*$` under Go's leftmost-first match
semantics: strip one anchored leading `//` or `/*` delimiter (with its
surrounding whitespace), then strip one trailing `*/` delimiter (with
its surrounding whitespace) from the remainder. -/
def stripCommentDelims (line : List Char) : List Char :=
  stripTrailingDelim (stripLeadingDelim line)

/-- The `section` struct: one Doc/Code pair. -/
structure Section where
  Doc : List Char
  Code : List Char
deriving DecidableEq, Repr

/-- The loop state of `extractSections`: the `commentFinder` closure
state, the section under construction, and the sections already pushed. -/
structure ExtractState where
  inProgress : Bool
  current : Section
  sections : List Section
deriving DecidableEq, Repr

/-- The initial loop state of `extractSections`. -/
def initExtractState : ExtractState := ⟨false, ⟨[], []⟩, []⟩

/-- The body of the `extractSections` loop applied to one line (the
non-breaking path): skip directives, split off the current section when a
comment line arrives while its code is non-empty, and append the line to
the current doc or code. -/
def extractStep (st : ExtractState) (line : List Char) : ExtractState :=
  if isDirective line then st
  else
    let c := commentFinderStep st.inProgress line
    if c.1 then
      if st.current.Code ≠ [] then
        ⟨c.2, ⟨stripCommentDelims line ++ ['\n'], []⟩, st.sections ++ [st.current]⟩
      else
        ⟨c.2, ⟨st.current.Doc ++ stripCommentDelims line ++ ['\n'], st.current.Code⟩, st.sections⟩
    else
      ⟨c.2, ⟨st.current.Doc, st.current.Code ++ line ++ ['\n']⟩, st.sections⟩

/-- The `extractSections` loop over the list of lines, including the
`intro` early `break` on the first non-comment line, and the
unconditional final push of the current section. -/
def extractLoop (intro : Bool) : List (List Char) → ExtractState → List Section
  | [], st => st.sections ++ [st.current]
  | line :: rest, st =>
    if isDirective line then extractLoop intro rest st
    else
      let c := commentFinderStep st.inProgress line
      if c.1 then
        if st.current.Code ≠ [] then
          extractLoop intro rest
            ⟨c.2, ⟨stripCommentDelims line ++ ['\n'], []⟩, st.sections ++ [st.current]⟩
        else
          extractLoop intro rest
            ⟨c.2, ⟨st.current.Doc ++ stripCommentDelims line ++ ['\n'], st.current.Code⟩,
              st.sections⟩
      else
        if intro then st.sections ++ [st.current]
        else
          extractLoop intro rest
            ⟨c.2, ⟨st.current.Doc, st.current.Code ++ line ++ ['\n']⟩, st.sections⟩

/-- `strings.Split(source, "\n")`. -/
def splitLines (source : List Char) : List (List Char) :=
  source.splitOn '\n'

/-- `extractSections`, parametrised by the global `*intro` flag. -/
def extractSections (intro : Bool) (source : List Char) : List Section :=
  extractLoop intro (splitLines source) initExtractState

/-- `joinSections`: concatenate each section's doc then code, in order. -/
def joinSections (sections : List Section) : List Char :=
  sections.foldl (fun res s => res ++ s.Doc ++ s.Code) []

/-- The character set of `strings.TrimLeft(s, "\t ")`. -/
def isTabOrSpace (c : Char) : Bool :=
  c == '\t' || c == ' '

/-- `strings.TrimLeft(s, "\t ")`. -/
def goTrimLeft (s : List Char) : List Char :=
  s.dropWhile isTabOrSpace

/-- `strings.Index(s, substr)`: position of the first occurrence of
`substr` in `s`, if any. -/
def firstIndexOf : List Char → List Char → Option Nat
  | [], pat => if pat.isPrefixOf ([] : List Char) then some 0 else none
  | s@(_ :: t), pat =>
    if pat.isPrefixOf s then some 0 else (firstIndexOf t pat).map (· + 1)

/-- `splitLeadingWs` from the source: `code := strings.TrimLeft(s, "\t ")`,
returning `s[:strings.Index(s, code)]` and `code`.  The index lookup never
fails because `code` is a suffix of `s`; the `getD` default is never used. -/
def splitLeadingWs (s : List Char) : List Char × List Char :=
  let code := goTrimLeft s
  (s.take ((firstIndexOf s code).getD 0), code)

/-- `unicode.IsSpace`: the Unicode White_Space property, i.e. `'\t'`,
`'\n'`, `'\v'`, `'\f'`, `'\r'`, `' '`, U+0085, U+00A0, U+1680,
U+2000 through U+200A, U+2028, U+2029, U+202F, U+205F and U+3000. -/
def goIsSpace (c : Char) : Bool :=
  c == '\t' || c == '\n' || c == '\x0b' || c == '\x0c' || c == '\r' || c == ' ' ||
  c == '\x85' || c == '\xa0' || c == '\u1680' ||
  c == '\u2000' || c == '\u2001' || c == '\u2002' || c == '\u2003' ||
  c == '\u2004' || c == '\u2005' || c == '\u2006' || c == '\u2007' ||
  c == '\u2008' || c == '\u2009' || c == '\u200a' ||
  c == '\u2028' || c == '\u2029' || c == '\u202f' || c == '\u205f' || c == '\u3000'

/-- `strings.Trim(s, "\n")`: remove leading and trailing newlines. -/
def goTrimNewlines (s : List Char) : List Char :=
  ((s.dropWhile (· == '\n')).reverse.dropWhile (· == '\n')).reverse

/-- `strings.TrimSpace(s)`. -/
def goTrimSpace (s : List Char) : List Char :=
  ((s.dropWhile goIsSpace).reverse.dropWhile goIsSpace).reverse

/-- `highlightCode` over a section list, with the external litebrite
highlighter as an uninterpreted function: a section whose code is
whitespace-only is replaced by a really empty code; otherwise the leading
whitespace is split off, the remainder highlighted, and the two re-joined. -/
def highlightCode (highlight : List Char → List Char) (sections : List Section) :
    List Section :=
  sections.map fun s =>
    if goTrimSpace (goTrimNewlines s.Code) ≠ [] then
      let p := splitLeadingWs s.Code
      ⟨s.Doc, p.1 ++ highlight p.2⟩
    else
      ⟨s.Doc, []⟩

/-- The opening fence `"\n```go\n"` written by `markdownCode`. -/
def mdFenceOpen : List Char := "\n```go\n".data

/-- The closing fence `"```\n"` written by `markdownCode`. -/
def mdFenceClose : List Char := "```\n".data

/-- `markdownCode`: wrap each section's code in Go-tagged Markdown code
fences, except a code that is exactly `"\n"`. -/
def markdownCode (sections : List Section) : List Section :=
  sections.map fun s =>
    if s.Code ≠ ['\n'] then ⟨s.Doc, mdFenceOpen ++ s.Code ++ mdFenceClose⟩ else s

/-- The claim-side deletion of all directive lines from a source text:
keep the non-directive lines and re-join them with newlines. -/
def removeDirectiveLines (source : List Char) : List Char :=
  ['\n'].intercalate ((splitLines source).filter fun l => !isDirective l)

/-- The number of newline-terminated lines held in an accumulated doc or
code text. -/
def countNewlines (s : List Char) : Nat :=
  s.count '\n'

/-- The state of the `extractSections` loop after the first `i` lines of
the source have been processed (with `intro` unset). -/
def extractStateAt (source : List Char) (i : Nat) : ExtractState :=
  ((splitLines source).take i).foldl extractStep initExtractState

/-- The `commentFinder` closure state as evolved by `extractSections`,
which skips directive lines without consulting the closure. -/
def extractClassifierState (b : Bool) : List (List Char) → Bool
  | [] => b
  | l :: rest =>
    if isDirective l then extractClassifierState b rest
    else extractClassifierState (commentFinderStep b l).2 rest

/-- Whether every non-directive line of a leading line block is classified
as a comment, threading the classifier state as `extractSections` does. -/
def introPrefixOk (b : Bool) : List (List Char) → Bool
  | [] => true
  | l :: rest =>
    if isDirective l then introPrefixOk b rest
    else
      (commentFinderStep b l).1 && introPrefixOk (commentFinderStep b l).2 rest

/-- The doc text accumulated from a leading block of comment and directive
lines: each non-directive line stripped of its delimiters plus a newline. -/
def introDocAcc (b : Bool) : List (List Char) → List Char
  | [] => []
  | l :: rest =>
    if isDirective l then introDocAcc b rest
    else stripCommentDelims l ++ ['\n'] ++ introDocAcc (commentFinderStep b l).2 rest

/-! ## Basic properties of the delimiter stripper and the line splitter -/

theorem dropOneSpace_sublist (l : List Char) : (dropOneSpace l).Sublist l := by
  cases l with
  | nil => exact List.Sublist.refl _
  | cons c t =>
    simp only [dropOneSpace]
    split
    · exact List.sublist_cons_self c t
    · exact List.Sublist.refl _

theorem rtrimSpace_sublist (l : List Char) : (rtrimSpace l).Sublist l := by
  have h := (List.dropWhile_sublist (l := l.reverse) isRegexSpace).reverse
  rwa [List.reverse_reverse] at h

theorem dropOneSpaceEnd_sublist (l : List Char) : (dropOneSpaceEnd l).Sublist l := by
  have h := (dropOneSpace_sublist l.reverse).reverse
  rwa [List.reverse_reverse] at h

theorem stripLeadingDelim_sublist (line : List Char) :
    (stripLeadingDelim line).Sublist line := by
  have hds : (line.dropWhile isRegexSpace).Sublist line := List.dropWhile_sublist _
  have hdrop : ((line.dropWhile isRegexSpace).drop 2).Sublist line :=
    (List.drop_sublist 2 _).trans hds
  simp only [stripLeadingDelim]
  split
  · exact (dropOneSpace_sublist _).trans hdrop
  · split
    · exact (dropOneSpace_sublist _).trans hdrop
    · exact List.Sublist.refl _

theorem stripTrailingDelim_sublist (r : List Char) :
    (stripTrailingDelim r).Sublist r := by
  have hrt : (rtrimSpace r).Sublist r := rtrimSpace_sublist r
  simp only [stripTrailingDelim]
  split
  · exact (dropOneSpaceEnd_sublist _).trans
      (((List.dropLast_sublist _).trans (List.dropLast_sublist _)).trans hrt)
  · exact List.Sublist.refl _

theorem stripCommentDelims_sublist (line : List Char) :
    (stripCommentDelims line).Sublist line :=
  (stripTrailingDelim_sublist _).trans (stripLeadingDelim_sublist line)

theorem stripCommentDelims_count_nl (line : List Char) (h : line.count '\n' = 0) :
    (stripCommentDelims line).count '\n' = 0 :=
  Nat.le_zero.mp (h ▸ (stripCommentDelims_sublist line).count_le '\n')

theorem splitOnP_pieces (p : Char → Bool) :
    ∀ (s : List Char), ∀ l ∈ s.splitOnP p, ∀ c ∈ l, p c = false := by
  intro s
  induction s with
  | nil =>
    intro l hl c hc
    simp only [List.splitOnP_nil, List.mem_singleton] at hl
    subst hl
    exact absurd hc (List.not_mem_nil c)
  | cons a t ih =>
    intro l hl c hc
    rw [List.splitOnP_cons] at hl
    by_cases hpa : p a
    · rw [if_pos hpa] at hl
      rcases List.mem_cons.mp hl with rfl | hl
      · exact absurd hc (List.not_mem_nil c)
      · exact ih l hl c hc
    · rw [if_neg hpa] at hl
      rcases hsp : t.splitOnP p with _ | ⟨hpiece, tl⟩
      · exact absurd hsp (List.splitOnP_ne_nil p t)
      · rw [hsp] at hl
        simp only [List.modifyHead, List.mem_cons] at hl
        rcases hl with rfl | hl
        · rcases List.mem_cons.mp hc with rfl | hc
          · exact Bool.of_not_eq_true hpa
          · exact ih hpiece (hsp ▸ List.mem_cons_self _ _) c hc
        · exact ih l (hsp ▸ List.mem_cons_of_mem _ hl) c hc

theorem splitLines_count_nl (source : List Char) :
    ∀ l ∈ splitLines source, l.count '\n' = 0 := by
  intro l hl
  rw [List.count_eq_zero]
  intro hc
  have := splitOnP_pieces (· == '\n') source l hl '\n' hc
  simp at this

/-! ## The extraction loop -/

theorem extractLoop_dropLast_code (intro : Bool) (lines : List (List Char)) :
    ∀ st : ExtractState, (∀ s ∈ st.sections, s.Code ≠ []) →
      ∀ s ∈ (extractLoop intro lines st).dropLast, s.Code ≠ [] := by
  induction lines with
  | nil =>
    intro st hst s hs
    rw [extractLoop, List.dropLast_concat] at hs
    exact hst s hs
  | cons line rest ih =>
    intro st hst s hs
    rw [extractLoop] at hs
    by_cases hd : isDirective line
    · rw [if_pos hd] at hs
      exact ih st hst s hs
    · rw [if_neg hd] at hs
      by_cases hc : (commentFinderStep st.inProgress line).1
      · rw [if_pos hc] at hs
        by_cases hcode : st.current.Code = []
        · rw [if_neg (by simpa using hcode)] at hs
          exact ih ⟨(commentFinderStep st.inProgress line).2,
            ⟨st.current.Doc ++ stripCommentDelims line ++ ['\n'], st.current.Code⟩,
            st.sections⟩ hst s hs
        · rw [if_pos (by simpa using hcode)] at hs
          refine ih _ ?_ s hs
          intro s' hs'
          rcases List.mem_append.mp hs' with h | h
          · exact hst s' h
          · rw [List.mem_singleton.mp h]
            exact hcode
      · rw [if_neg hc] at hs
        by_cases hintro : intro
        · rw [if_pos hintro, List.dropLast_concat] at hs
          exact hst s hs
        · rw [if_neg hintro] at hs
          exact ih ⟨(commentFinderStep st.inProgress line).2,
            ⟨st.current.Doc, st.current.Code ++ line ++ ['\n']⟩, st.sections⟩ hst s hs

/-- C10: in every extraction result, a section other than the last one has
non-empty code; an empty code can only occur in the final section, because
sections are pushed only on a comment line seen with non-empty code. -/
theorem nonlast_section_code_ne_nil (intro : Bool) (source : List Char) (s : Section)
    (h : s ∈ (extractSections intro source).dropLast) : s.Code ≠ [] :=
  extractLoop_dropLast_code intro (splitLines source) initExtractState
    (by intro s' hs'; exact absurd hs' (List.not_mem_nil s')) s h

/-- Witness for `nonlast_section_code_ne_nil` at the source
`"x\n// c"`, whose extraction has a first section with code `"x\n"`. -/
theorem nonlast_section_code_ne_nil_witness :
    (⟨[], "x\n".data⟩ : Section) ∈ (extractSections false "x\n// c".data).dropLast ∧
      (⟨[], "x\n".data⟩ : Section).Code ≠ [] :=
  ⟨by decide, nonlast_section_code_ne_nil false "x\n// c".data _ (by decide)⟩

/-! ## Markdown code fences -/

/-- C7: the Markdown target wraps a section's code in a Go-tagged fenced
code block, prefix `"\n```go\n"` and suffix `"```\n"`, whenever the code is
not exactly the lone newline `"\n"`; a code that is exactly `"\n"` (the
rendering of a full-width section) is left unchanged. -/
theorem markdownCode_fences (sections : List Section) (i : Nat) (s : Section)
    (h : sections[i]? = some s) :
    (s.Code ≠ [] → s.Code ≠ ['\n'] →
      (markdownCode sections)[i]? = some ⟨s.Doc, mdFenceOpen ++ s.Code ++ mdFenceClose⟩) ∧
    (s.Code = ['\n'] → (markdownCode sections)[i]? = some s) := by
  constructor
  · intro _ hne
    rw [markdownCode, List.getElem?_map, h, Option.map_some']
    rw [if_pos (by simpa using hne)]
  · intro heq
    rw [markdownCode, List.getElem?_map, h, Option.map_some']
    rw [if_neg (by simpa using heq)]

/-- Witness for `markdownCode_fences` on a two-section list holding one
real code block and one lone-newline code block. -/
theorem markdownCode_fences_witness :
    ([(⟨"d\n".data, "x\n".data⟩ : Section), ⟨"e\n".data, ['\n']⟩][0]? =
        some ⟨"d\n".data, "x\n".data⟩) ∧
      (markdownCode [⟨"d\n".data, "x\n".data⟩, ⟨"e\n".data, ['\n']⟩])[0]? =
        some ⟨"d\n".data, mdFenceOpen ++ "x\n".data ++ mdFenceClose⟩ :=
  ⟨by decide,
    (markdownCode_fences [⟨"d\n".data, "x\n".data⟩, ⟨"e\n".data, ['\n']⟩] 0
      ⟨"d\n".data, "x\n".data⟩ (by decide)).1 (by decide) (by decide)⟩

/-! ## The worked examples from the specification -/

/-- C2 counterexample: on the Example 1 input the extractor does not
return the three claimed sections (there is no trailing empty section, and
the second section's code carries three trailing newlines). -/
theorem example1_claim_false :
    extractSections false
      ("// Test comment\n// more comment\n\nTest code\nMore code\n\n// Second comment\n  Second code snippet\n\n").data
    ≠ [⟨"Test comment\nmore comment\n".data, "\nTest code\nMore code\n\n".data⟩,
       ⟨"Second comment\n".data, "  Second code snippet\n\n".data⟩,
       ⟨[], []⟩] := by decide

/-- C2 amended: the Example 1 input yields exactly two sections; the final
unconditional push contributes the second section itself (its code ends in
three newlines: one per trailing source line), not an extra empty one. -/
theorem example1_sections :
    extractSections false
      ("// Test comment\n// more comment\n\nTest code\nMore code\n\n// Second comment\n  Second code snippet\n\n").data
    = [⟨"Test comment\nmore comment\n".data, "\nTest code\nMore code\n\n".data⟩,
       ⟨"Second comment\n".data, "  Second code snippet\n\n\n".data⟩] := by decide

/-- C8 counterexample: the lone block comment `"/* Third\nEnd */\n"` does
not extract to a section with empty code. -/
theorem example2_claim_false :
    extractSections false ("/* Third\nEnd */\n").data
    ≠ [⟨"Third\nEnd\n".data, []⟩] := by decide

/-- C8 amended: the input `"/* Third\nEnd */\n"` yields one section whose
doc is the stripped comment text and whose code is the lone newline
contributed by the empty line after the final `\n` of the source. -/
theorem example2_sections :
    extractSections false ("/* Third\nEnd */\n").data
    = [⟨"Third\nEnd\n".data, ['\n']⟩] := by decide

/-! ## The section split condition (C1) -/

theorem extractLoop_false_foldl (lines : List (List Char)) :
    ∀ st : ExtractState, extractLoop false lines st =
      (lines.foldl extractStep st).sections ++ [(lines.foldl extractStep st).current] := by
  induction lines with
  | nil => intro st; rfl
  | cons line rest ih =>
    intro st
    by_cases hd : isDirective line
    · simp only [extractLoop, List.foldl_cons, extractStep, if_pos hd]
      exact ih st
    · by_cases hc : (commentFinderStep st.inProgress line).1
      · by_cases hcode : st.current.Code = []
        · simp only [extractLoop, List.foldl_cons, extractStep, if_neg hd, if_pos hc,
            hcode, ne_eq, not_true_eq_false, if_false]
          exact ih _
        · simp only [extractLoop, List.foldl_cons, extractStep, if_neg hd, if_pos hc,
            if_pos (show st.current.Code ≠ [] from hcode)]
          exact ih _
      · simp only [extractLoop, List.foldl_cons, extractStep, if_neg hd, if_neg hc,
          Bool.false_eq_true, if_false]
        exact ih _

/-- C1: with `intro` unset, the extractor is the fold of `extractStep`
over the source lines, and at every non-directive line the pushed-section
count grows by one exactly when the line is classified as a comment while
the current section's accumulated code is non-empty; a comment line seen
with empty code only extends the current doc, and a non-comment line never
pushes a section. -/
theorem extract_new_section_iff (source : List Char) (i : Nat)
    (h : i < (splitLines source).length)
    (l : List Char) (st st' : ExtractState)
    (hl : (splitLines source)[i] = l)
    (hst : extractStateAt source i = st)
    (hst' : extractStateAt source (i + 1) = st')
    (hd : isDirective l = false) :
    extractSections false source =
      (extractStateAt source (splitLines source).length).sections ++
        [(extractStateAt source (splitLines source).length).current] ∧
    (st'.sections.length = st.sections.length + 1 ↔
      ((commentFinderStep st.inProgress l).1 = true ∧ st.current.Code ≠ [])) ∧
    ((commentFinderStep st.inProgress l).1 = true → st.current.Code = [] →
      st'.sections = st.sections ∧
        st'.current.Doc = st.current.Doc ++ stripCommentDelims l ++ ['\n'] ∧
        st'.current.Code = st.current.Code) ∧
    ((commentFinderStep st.inProgress l).1 = false →
      st'.sections = st.sections ∧ st'.current.Doc = st.current.Doc) := by
  have hstep : st' = extractStep st l := by
    rw [← hst', ← hst, extractStateAt, extractStateAt, List.take_succ,
      List.getElem?_eq_getElem h, hl, Option.toList_some, List.foldl_append,
      List.foldl_cons, List.foldl_nil]
  refine ⟨?_, ?_⟩
  · rw [extractSections, extractStateAt, List.take_length]
    exact extractLoop_false_foldl (splitLines source) initExtractState
  rw [hstep, extractStep, if_neg (by simp [hd])]
  by_cases hc : (commentFinderStep st.inProgress l).1
  · by_cases hcode : st.current.Code = []
    · rw [if_pos hc, if_neg (by simpa using hcode)]
      refine ⟨?_, ?_, ?_⟩
      · simp [hcode]
      · intro _ _
        exact ⟨rfl, rfl, rfl⟩
      · intro hfalse
        rw [hc] at hfalse
        exact absurd hfalse (by simp)
    · rw [if_pos hc, if_pos (show st.current.Code ≠ [] from hcode)]
      refine ⟨?_, ?_, ?_⟩
      · simp [hc, hcode]
      · intro _ hcontra
        exact absurd hcontra hcode
      · intro hfalse
        rw [hc] at hfalse
        exact absurd hfalse (by simp)
  · rw [if_neg hc]
    refine ⟨?_, ?_, ?_⟩
    · simp only [List.length_append]
      constructor
      · intro hcontra
        omega
      · rintro ⟨hc1, -⟩
        exact absurd hc1 hc
    · intro hc1
      exact absurd hc1 hc
    · intro _
      exact ⟨rfl, rfl⟩

/-- Witness for `extract_new_section_iff`: the source of Example 1 at
line index 6 (`"// Second comment"`), where a new section is opened. -/
theorem extract_new_section_iff_witness :
    (6 < (splitLines ("// Test comment\n// more comment\n\nTest code\nMore code\n\n// Second comment\n  Second code snippet\n\n").data).length) ∧
    ((extractStateAt ("// Test comment\n// more comment\n\nTest code\nMore code\n\n// Second comment\n  Second code snippet\n\n").data 7).sections.length =
      (extractStateAt ("// Test comment\n// more comment\n\nTest code\nMore code\n\n// Second comment\n  Second code snippet\n\n").data 6).sections.length + 1 ↔
      ((commentFinderStep (extractStateAt ("// Test comment\n// more comment\n\nTest code\nMore code\n\n// Second comment\n  Second code snippet\n\n").data 6).inProgress "// Second comment".data).1 = true ∧
        (extractStateAt ("// Test comment\n// more comment\n\nTest code\nMore code\n\n// Second comment\n  Second code snippet\n\n").data 6).current.Code ≠ [])) :=
  ⟨by decide,
    (extract_new_section_iff ("// Test comment\n// more comment\n\nTest code\nMore code\n\n// Second comment\n  Second code snippet\n\n").data 6
      (by decide) "// Second comment".data _ _ (by decide) rfl rfl (by decide)).2.1⟩

/-! ## Round-trip line count (C3) -/

theorem joinSections_foldl (sections : List Section) :
    ∀ acc : List Char,
      sections.foldl (fun res s => res ++ s.Doc ++ s.Code) acc =
        acc ++ joinSections sections := by
  induction sections with
  | nil => intro acc; simp [joinSections]
  | cons s rest ih =>
    intro acc
    rw [joinSections, List.foldl_cons, List.foldl_cons, ih, ih (([] ++ s.Doc) ++ s.Code)]
    simp

theorem joinSections_append (xs ys : List Section) :
    joinSections (xs ++ ys) = joinSections xs ++ joinSections ys := by
  rw [joinSections, List.foldl_append, joinSections_foldl, joinSections_foldl,
    List.nil_append]

theorem countNewlines_append (a b : List Char) :
    countNewlines (a ++ b) = countNewlines a + countNewlines b :=
  List.count_append '\n' a b

theorem extractLoop_count (lines : List (List Char)) :
    ∀ st : ExtractState, (∀ l ∈ lines, l.count '\n' = 0) →
      countNewlines (joinSections (extractLoop false lines st)) =
        countNewlines (joinSections st.sections) + countNewlines st.current.Doc +
          countNewlines st.current.Code +
          (lines.filter (fun l => !isDirective l)).length := by
  induction lines with
  | nil =>
    intro st _
    rw [extractLoop, joinSections_append, countNewlines_append]
    have hone : joinSections [st.current] = st.current.Doc ++ st.current.Code := by
      simp [joinSections]
    rw [hone, countNewlines_append, List.filter_nil, List.length_nil]
    omega
  | cons line rest ih =>
    intro st hfree
    have hline : line.count '\n' = 0 := hfree line (List.mem_cons_self _ _)
    have hrest : ∀ l ∈ rest, l.count '\n' = 0 := fun l hl =>
      hfree l (List.mem_cons_of_mem _ hl)
    by_cases hd : isDirective line
    · simp only [extractLoop, if_pos hd, List.filter_cons, hd, Bool.not_true, if_false]
      exact ih st hrest
    · have hfilter : (List.filter (fun l => !isDirective l) (line :: rest)) =
          line :: rest.filter (fun l => !isDirective l) := by
        simp [List.filter_cons, hd]
      by_cases hc : (commentFinderStep st.inProgress line).1
      · by_cases hcode : st.current.Code = []
        · simp only [extractLoop, if_neg hd, if_pos hc, hcode, ne_eq, not_true_eq_false,
            if_false]
          rw [ih _ hrest, hfilter]
          simp only [countNewlines_append]
          have : countNewlines (stripCommentDelims line) = 0 :=
            stripCommentDelims_count_nl line hline
          simp only [countNewlines] at this
          simp [hcode, countNewlines, this]
          omega
        · simp only [extractLoop, if_neg hd, if_pos hc,
            if_pos (show st.current.Code ≠ [] from hcode)]
          rw [ih _ hrest, hfilter]
          simp only [joinSections_append, countNewlines_append]
          have hstrip : countNewlines (stripCommentDelims line) = 0 :=
            stripCommentDelims_count_nl line hline
          have hone : joinSections [st.current] = st.current.Doc ++ st.current.Code := by
            simp [joinSections]
          rw [hone, countNewlines_append]
          simp only [countNewlines] at hstrip
          simp [countNewlines, hstrip]
          omega
      · simp only [extractLoop, if_neg hd, if_neg hc, Bool.false_eq_true, if_false]
        rw [ih _ hrest, hfilter]
        simp only [countNewlines_append]
        simp [countNewlines, hline]
        omega

/-- C3: with `intro` unset, the number of newline-terminated lines across
all sections' concatenated doc and code texts plus the number of directive
lines equals the number of lines obtained by splitting the source on the
newline character. -/
theorem roundtrip_line_count (source : List Char) :
    countNewlines (joinSections (extractSections false source)) +
      ((splitLines source).filter isDirective).length =
      (splitLines source).length := by
  rw [extractSections, extractLoop_count (splitLines source) initExtractState
    (splitLines_count_nl source)]
  have h := List.length_eq_length_filter_add (l := splitLines source) isDirective
  simp only [initExtractState, joinSections, countNewlines, List.foldl_nil,
    List.count_nil]
  omega

/-! ## Directive deletion (C5) -/

theorem extractLoop_filter_directives (intro : Bool) (lines : List (List Char)) :
    ∀ st : ExtractState,
      extractLoop intro (lines.filter fun l => !isDirective l) st =
        extractLoop intro lines st := by
  induction lines with
  | nil => intro st; rfl
  | cons line rest ih =>
    intro st
    by_cases hd : isDirective line
    · simp only [List.filter_cons, hd, Bool.not_true, Bool.false_eq_true, if_false]
      rw [ih st, extractLoop, if_pos hd]
    · simp only [List.filter_cons, hd, Bool.not_false, if_true]
      rw [extractLoop, extractLoop, if_neg hd, if_neg hd]
      by_cases hc : (commentFinderStep st.inProgress line).1
      · by_cases hcode : st.current.Code = []
        · simp only [if_pos hc, hcode, ne_eq, not_true_eq_false, if_false]
          exact ih _
        · simp only [if_pos hc, if_pos (show st.current.Code ≠ [] from hcode)]
          exact ih _
      · simp only [if_neg hc, Bool.false_eq_true, if_false]
        by_cases hintro : intro
        · rw [if_pos hintro, if_pos hintro]
        · rw [if_neg hintro, if_neg hintro]
          exact ih _

/-- C5 counterexample: for the one-line source `"//go:x"` (a directive
line with no trailing newline), deleting all directive lines yields the
empty source, whose extraction gains an empty code line: the results
differ. -/
theorem directive_deletion_claim_false :
    extractSections false (removeDirectiveLines "//go:x".data) ≠
      extractSections false "//go:x".data := by decide

/-- C5 amended: deleting all directive lines from the source leaves the
extraction unchanged, provided at least one line of the source is not a
directive (for an all-directive source without trailing newline, the
deleted source is empty and contributes one extra empty code line). -/
theorem directive_deletion_eq (intro : Bool) (source : List Char)
    (h : ∃ l ∈ splitLines source, isDirective l = false) :
    extractSections intro (removeDirectiveLines source) =
      extractSections intro source := by
  obtain ⟨l, hl, hld⟩ := h
  have hmem : l ∈ (splitLines source).filter fun l => !isDirective l :=
    List.mem_filter.mpr ⟨hl, by simp [hld]⟩
  have hne : ((splitLines source).filter fun l => !isDirective l) ≠ [] :=
    fun hnil => absurd (hnil ▸ hmem) (List.not_mem_nil l)
  have hnonl : ∀ p ∈ (splitLines source).filter fun l => !isDirective l, '\n' ∉ p := by
    intro p hp hc
    have := splitLines_count_nl source p (List.mem_of_mem_filter hp)
    exact absurd (List.count_eq_zero.mp this) (fun hn => hn hc)
  have hsplit : splitLines (removeDirectiveLines source) =
      (splitLines source).filter fun l => !isDirective l := by
    rw [splitLines, removeDirectiveLines, splitLines]
    exact List.splitOn_intercalate _ '\n' hnonl hne
  rw [extractSections, hsplit, extractLoop_filter_directives, extractSections]

/-- Witness for `directive_deletion_eq` on the source
`"//go:a\nx"`, which contains the non-directive line `"x"`. -/
theorem directive_deletion_eq_witness :
    (∃ l ∈ splitLines "//go:a\nx".data, isDirective l = false) ∧
      extractSections false (removeDirectiveLines "//go:a\nx".data) =
        extractSections false "//go:a\nx".data :=
  ⟨by decide, directive_deletion_eq false "//go:a\nx".data (by decide)⟩

/-! ## Intro-only extraction (C6) -/

theorem extractLoop_intro_leading (pre : List (List Char)) :
    ∀ (b : Bool) (d : List Char) (l : List Char) (rest : List (List Char)),
      introPrefixOk b pre = true →
      isDirective l = false →
      (commentFinderStep (extractClassifierState b pre) l).1 = false →
      extractLoop true (pre ++ l :: rest) ⟨b, ⟨d, []⟩, []⟩ =
        [⟨d ++ introDocAcc b pre, []⟩] := by
  induction pre with
  | nil =>
    intro b d l rest _ hld hc
    rw [List.nil_append, extractLoop, if_neg (by simp [hld])]
    rw [extractClassifierState] at hc
    rw [if_neg (by simp [hc]), if_pos rfl]
    simp [introDocAcc]
  | cons p pre' ih =>
    intro b d l rest hpre hld hc
    rw [introPrefixOk] at hpre
    rw [extractClassifierState] at hc
    rw [List.cons_append, extractLoop]
    by_cases hpd : isDirective p
    · rw [if_pos hpd]
      rw [if_pos hpd] at hpre hc
      rw [ih b d l rest hpre hld hc, introDocAcc, if_pos hpd]
    · rw [if_neg hpd]
      rw [if_neg hpd] at hpre hc
      obtain ⟨hp1, hpre'⟩ := Bool.and_eq_true_iff.mp hpre
      rw [if_pos hp1, if_neg (by simp)]
      rw [ih (commentFinderStep b p).2 (d ++ stripCommentDelims p ++ ['\n']) l rest
        hpre' hld hc]
      rw [introDocAcc, if_neg hpd]
      simp

/-- C6: with `intro` set, on a source whose leading lines are comments or
directives up to a first non-comment, non-directive line, extraction
stops at that line and returns exactly one section holding the stripped
leading comment block and an empty code, regardless of the lines that
follow. -/
theorem intro_only_first_block (pre : List (List Char)) (l : List Char)
    (rest : List (List Char)) (source : List Char)
    (hsplit : splitLines source = pre ++ l :: rest)
    (hpre : introPrefixOk false pre = true)
    (hld : isDirective l = false)
    (hc : (commentFinderStep (extractClassifierState false pre) l).1 = false) :
    extractSections true source = [⟨introDocAcc false pre, []⟩] := by
  rw [extractSections, hsplit, initExtractState]
  rw [extractLoop_intro_leading pre false [] l rest hpre hld hc, List.nil_append]

/-- Witness for `intro_only_first_block`: a two-line intro comment
followed by code, with further lines after the stopping line. -/
theorem intro_only_first_block_witness :
    (splitLines "// intro\n// more\npackage main\n// later\n".data =
      ["// intro".data, "// more".data] ++ "package main".data ::
        ["// later".data, []]) ∧
      extractSections true "// intro\n// more\npackage main\n// later\n".data =
        [⟨introDocAcc false ["// intro".data, "// more".data], []⟩] :=
  ⟨by decide,
    intro_only_first_block ["// intro".data, "// more".data] "package main".data
      ["// later".data, []] "// intro\n// more\npackage main\n// later\n".data
      (by decide) (by decide) (by decide) (by decide)⟩

/-! ## Unterminated block comments (C9) -/

theorem matchesCommentStart_not_comment (l : List Char)
    (h : matchesCommentStart l = true) : matchesComment l = false := by
  rw [matchesCommentStart, beq_iff_eq] at h
  rw [matchesComment]
  simp only [h]
  decide

theorem commentFinderState_append (b : Bool) (xs ys : List (List Char)) :
    commentFinderState b (xs ++ ys) =
      commentFinderState (commentFinderState b xs) ys := by
  induction xs generalizing b with
  | nil => rfl
  | cons x xs ih =>
    rw [List.cons_append, commentFinderState, commentFinderState, ih]

theorem commentFinderStep_start (b : Bool) (s : List Char)
    (h : matchesCommentStart s = true) : commentFinderStep b s = (true, true) := by
  rw [commentFinderStep, if_neg (by simp [matchesCommentStart_not_comment s h]),
    if_pos h]

theorem commentFinderStep_inside (l : List Char)
    (h1 : matchesComment l = false) (h2 : matchesCommentStart l = false)
    (h3 : matchesCommentEnd l = false) : commentFinderStep true l = (true, true) := by
  rw [commentFinderStep, if_neg (by simp [h1]), if_neg (by simp [h2]),
    if_neg (by simp [h3]), if_pos rfl]

theorem commentFinderState_inside (rest : List (List Char))
    (h : ∀ l ∈ rest, matchesComment l = false ∧ matchesCommentStart l = false ∧
      matchesCommentEnd l = false) :
    commentFinderState true rest = true := by
  induction rest with
  | nil => rfl
  | cons l rest ih =>
    obtain ⟨h1, h2, h3⟩ := h l (List.mem_cons_self _ _)
    rw [commentFinderState, commentFinderStep_inside l h1 h2 h3]
    exact ih fun l' hl' => h l' (List.mem_cons_of_mem _ hl')

/-- C9: once a line matching the block-comment start pattern is seen, if no
later line matches the single-line, block-start or block-end pattern, the
classifier enters and stays in the in-block-comment state to the end of the
input, classifying the start line and every later line as a comment. -/
theorem unterminated_block_comment (b0 : Bool) (pre : List (List Char))
    (s : List Char) (rest : List (List Char))
    (hs : matchesCommentStart s = true)
    (hrest : ∀ l ∈ rest, matchesComment l = false ∧ matchesCommentStart l = false ∧
      matchesCommentEnd l = false) :
    (commentFinderStep (commentFinderState b0 pre) s).1 = true ∧
    commentFinderState b0 (pre ++ s :: rest) = true ∧
    ∀ r1 l r2, rest = r1 ++ l :: r2 →
      commentFinderStep (commentFinderState b0 (pre ++ s :: r1)) l = (true, true) := by
  have hstate : ∀ r1 : List (List Char), (∀ l ∈ r1, matchesComment l = false ∧
        matchesCommentStart l = false ∧ matchesCommentEnd l = false) →
      commentFinderState b0 (pre ++ s :: r1) = true := by
    intro r1 h1
    rw [commentFinderState_append, commentFinderState,
      commentFinderStep_start _ s hs]
    exact commentFinderState_inside r1 h1
  refine ⟨by rw [commentFinderStep_start _ s hs], hstate rest hrest, ?_⟩
  intro r1 l r2 hsplit
  have hr1 : ∀ l' ∈ r1, matchesComment l' = false ∧ matchesCommentStart l' = false ∧
      matchesCommentEnd l' = false := by
    intro l' hl'
    exact hrest l' (hsplit ▸ List.mem_append_left _ hl')
  obtain ⟨h1, h2, h3⟩ := hrest l (hsplit ▸ List.mem_append_right _ (List.mem_cons_self _ _))
  rw [hstate r1 hr1]
  exact commentFinderStep_inside l h1 h2 h3

/-- Witness for `unterminated_block_comment`: a `/*` opener followed by two
ordinary lines and no closer. -/
theorem unterminated_block_comment_witness :
    matchesCommentStart "/* begin".data = true ∧
      commentFinderState false (["x".data] ++ "/* begin".data ::
        ["alpha".data, "beta".data]) = true :=
  ⟨by decide,
    (unterminated_block_comment false ["x".data] "/* begin".data
      ["alpha".data, "beta".data] (by decide) (by decide)).2.1⟩

/-! ## Highlighting and whitespace handling (C4) -/

theorem all_dropWhile_eq (p q : Char → Bool) (hpq : ∀ c, p c = true → q c = true) :
    ∀ x : List Char, (x.dropWhile p).all q = x.all q := by
  intro x
  induction x with
  | nil => rfl
  | cons c t ih =>
    by_cases hp : p c
    · rw [List.dropWhile_cons_of_pos hp, ih, List.all_cons, hpq c hp, Bool.true_and]
    · rw [List.dropWhile_cons_of_neg (by simp [hp])]

theorem trimBoth_all (p q : Char → Bool) (hpq : ∀ c, p c = true → q c = true)
    (x : List Char) :
    (((x.dropWhile p).reverse.dropWhile p).reverse).all q = x.all q := by
  rw [List.all_reverse, all_dropWhile_eq p q hpq, List.all_reverse,
    all_dropWhile_eq p q hpq]

theorem all_eq_all_dropWhile (p : Char → Bool) (x : List Char) :
    (x.dropWhile p).all p = x.all p := by
  rw [all_dropWhile_eq p p (fun _ h => h)]

theorem goTrimSpace_eq_nil_iff (x : List Char) :
    goTrimSpace x = [] ↔ x.all goIsSpace = true := by
  rw [goTrimSpace, List.reverse_eq_nil_iff, List.dropWhile_eq_nil_iff]
  constructor
  · intro h
    rw [← all_eq_all_dropWhile goIsSpace x, List.all_eq_true]
    intro c hc
    exact h c (List.mem_reverse.mpr hc)
  · intro h c hc
    have hc' : c ∈ x.dropWhile goIsSpace := List.mem_reverse.mp hc
    rw [← all_eq_all_dropWhile goIsSpace x, List.all_eq_true] at h
    exact h c hc'

theorem highlight_cond_iff (code : List Char) :
    goTrimSpace (goTrimNewlines code) = [] ↔ code.all goIsSpace = true := by
  rw [goTrimSpace_eq_nil_iff, goTrimNewlines,
    trimBoth_all (· == '\n') goIsSpace (by intro c h; rw [beq_iff_eq] at h; subst h; rfl)]

theorem dropWhile_head_false (p : Char → Bool) :
    ∀ (t : List Char) (c₀ : Char) (t₀ : List Char),
      t.dropWhile p = c₀ :: t₀ → p c₀ = false := by
  intro t
  induction t with
  | nil => intro c₀ t₀ h; exact absurd h (by simp)
  | cons c t ih =>
    intro c₀ t₀ h
    by_cases hp : p c
    · rw [List.dropWhile_cons_of_pos hp] at h
      exact ih c₀ t₀ h
    · rw [List.dropWhile_cons_of_neg (by simp [hp])] at h
      injection h with h1 _
      rw [← h1]
      simpa using hp

theorem firstIndexOf_dropWhile (p : Char → Bool) :
    ∀ s : List Char, s.dropWhile p ≠ [] →
      firstIndexOf s (s.dropWhile p) = some (s.takeWhile p).length := by
  intro s
  induction s with
  | nil => intro h; exact absurd rfl h
  | cons c t ih =>
    intro h
    by_cases hp : p c
    · rw [List.dropWhile_cons_of_pos hp] at h ⊢
      rcases hd : t.dropWhile p with _ | ⟨c₀, t₀⟩
      · exact absurd hd h
      · have hc₀ : p c₀ = false := dropWhile_head_false p t c₀ t₀ hd
        have hneq : c₀ ≠ c := by
          intro he
          rw [he, hp] at hc₀
          exact Bool.noConfusion hc₀
        have hcond : ¬((c₀ :: t₀).isPrefixOf (c :: t) = true) := by
          simp [List.isPrefixOf, hneq]
        rw [firstIndexOf, if_neg hcond, ← hd, ih h, Option.map_some',
          List.takeWhile_cons_of_pos hp, List.length_cons]
    · rw [List.dropWhile_cons_of_neg (by simp [hp])] at h ⊢
      rw [firstIndexOf, if_pos (by simp),
        List.takeWhile_cons_of_neg (by simp [hp]), List.length_nil]

theorem isTabOrSpace_goIsSpace (c : Char) (h : isTabOrSpace c = true) :
    goIsSpace c = true := by
  rw [isTabOrSpace, Bool.or_eq_true, beq_iff_eq, beq_iff_eq] at h
  rcases h with rfl | rfl <;> decide

theorem splitLeadingWs_eq (s : List Char) (h : s.dropWhile isTabOrSpace ≠ []) :
    splitLeadingWs s = (s.takeWhile isTabOrSpace, s.dropWhile isTabOrSpace) := by
  have hidx := firstIndexOf_dropWhile isTabOrSpace s h
  have htake : s.take (s.takeWhile isTabOrSpace).length = s.takeWhile isTabOrSpace :=
    (List.prefix_iff_eq_take.mp ( List.takeWhile_prefix isTabOrSpace)).symm
  simp only [splitLeadingWs, goTrimLeft, hidx, Option.getD_some, htake]

/-- C4: `highlightCode` (HTML target) replaces a section's code by the
really-empty string exactly when the code consists solely of whitespace
characters and newlines; every other section's code becomes its maximal
leading run of tabs and spaces followed by the highlighted remainder, and
that leading run plus the remainder is the original code. -/
theorem highlightCode_spec (highlight : List Char → List Char)
    (sections : List Section) :
    highlightCode highlight sections = sections.map (fun s =>
      if s.Code.all goIsSpace then ⟨s.Doc, []⟩
      else ⟨s.Doc, s.Code.takeWhile isTabOrSpace ++
        highlight (s.Code.dropWhile isTabOrSpace)⟩) ∧
    ∀ code : List Char,
      code.takeWhile isTabOrSpace ++ code.dropWhile isTabOrSpace = code := by
  constructor
  · rw [highlightCode]
    apply List.map_congr_left
    intro s _
    by_cases hall : s.Code.all goIsSpace
    · rw [if_neg (not_not_intro ((highlight_cond_iff s.Code).mpr hall)), if_pos hall]
    · have hcond : goTrimSpace (goTrimNewlines s.Code) ≠ [] := fun heq =>
        hall ((highlight_cond_iff s.Code).mp heq)
      have hdw : s.Code.dropWhile isTabOrSpace ≠ [] := by
        intro hnil
        apply hall
        rw [List.all_eq_true]
        intro c hc
        by_contra hcs
        have hts : isTabOrSpace c = false := by
          rcases hb : isTabOrSpace c with _ | _
          · rfl
          · exact absurd (isTabOrSpace_goIsSpace c hb) hcs
        have := List.dropWhile_eq_nil_iff.mp hnil c hc
        rw [hts] at this
        exact Bool.noConfusion this
      rw [if_pos hcond, if_neg hall, splitLeadingWs_eq s.Code hdw]
  · intro code
    exact List.takeWhile_append_dropWhile isTabOrSpace code
